import Mathlib

/-!
# Shallow embedding of `app/rag.py` (hybrid retrieval and ranking engine)

This file models the retrieval core of the support-mail assistant:

* `chunk_markdown`       — `_chunk_markdown` (paragraph splitting + hard wrap)
* `read_kb_docs`         — `_read_kb_docs` (the directory is modelled as an
  already-sorted association list of `(path, file text)` pairs)
* `strip_accents`, `tokenize`, `stem_fr`, `lexical_score` — the French
  lexical normalisation layer
* `is_numbered_steps`, `norm` — the post-processing helpers
* `retrieve_snippets`    — the fusion/guarantee pipeline, decomposed into the
  intermediate values the Python function builds (`vector_candidates`,
  `lex_candidates`, `combinedMap`, `rankedItems`, the two guarantee splices).

Modelling conventions:

* Python `str` is modelled as `String`, operated on through `List Char`;
  Python `len`, slicing and comparison act on code points, as here.
* Python `float` vector scores are modelled as exact rationals `ℚ`; the engine
  only relies on order ("lower is better") and on the sentinel `1e9`, all of
  which are exact in the range exercised here.
* The vector similarity provider (`Chroma.similarity_search_with_score`) is an
  external collaborator: its one call inside `retrieve_snippets` is modelled by
  a parameter of type `Except Unit (List (String × ℚ × String))` carrying
  either the raised exception or the returned `(page_content, score, source)`
  hits (a hit's metadata dict is modelled by its `"source"` entry, the only
  key the engine ever reads; `float(score or 0.0)` is the identity on the
  rational scores used here).
* The `IndexError` that Python raises when the guarantee splice executes
  `top[-1] = ...` on an empty list is modelled by `Except PyErr`.
* `unicodedata`-based accent stripping and `str.lower` are stdlib calls; they
  are modelled exactly on the Basic Latin and Latin-1 ranges (all code points
  the regex token class `[A-Za-zÀ-ÿ0-9]` admits) and as the identity above
  U+00FF.
* The final dict `{"content", "source", "score": f"{score:.6f}"}` is modelled
  by the `Snippet` value itself; the 6-decimal string rendering is pure
  presentation and no claim depends on it.
-/

namespace RagSpec

/-- Python whitespace (the characters `str.strip`, `str.isspace` and the `re`
pattern `\s` recognise in text mode). -/
def isPySpace (c : Char) : Bool :=
  let v := c.toNat
  decide ((0x09 ≤ v ∧ v ≤ 0x0D) ∨ (0x1C ≤ v ∧ v ≤ 0x1F) ∨ v = 0x20 ∨ v = 0x85 ∨
    v = 0xA0 ∨ v = 0x1680 ∨ (0x2000 ≤ v ∧ v ≤ 0x200A) ∨ v = 0x2028 ∨ v = 0x2029 ∨
    v = 0x202F ∨ v = 0x205F ∨ v = 0x3000)

/-- Python `str.strip()` on a list of characters. -/
def pyStripL (cs : List Char) : List Char :=
  ((cs.dropWhile isPySpace).reverse.dropWhile isPySpace).reverse

/-- Python `str.strip()`. -/
def pyStrip (s : String) : String :=
  ⟨pyStripL s.data⟩

/-- Python `str.split("\n\n")`: split on each leftmost non-overlapping
occurrence of a blank-line separator. -/
def splitNN : List Char → List (List Char)
  | [] => [[]]
  | '\n' :: '\n' :: rest => [] :: splitNN rest
  | c :: rest => consHead c (splitNN rest)
where
  /-- Prepend a character onto the first piece. -/
  consHead (c : Char) : List (List Char) → List (List Char)
    | [] => [[c]]
    | r :: rs => (c :: r) :: rs

/-- The `while len(para) > max_len` loop of `_chunk_markdown`, with explicit
fuel: emit stripped `max_len`-character slices, then the remaining tail if
non-empty.  When `max_len ≥ 1`, every iteration shortens the paragraph, so the
fuel `para.length` supplied by `wrapPara` is never exhausted; the source loops
forever when `max_len = 0`. -/
def wrapGo (maxLen : Nat) : Nat → List Char → List (List Char)
  | 0, para => if para.isEmpty then [] else [para]
  | fuel + 1, para =>
    if maxLen < para.length then
      pyStripL (para.take maxLen) :: wrapGo maxLen fuel (para.drop maxLen)
    else if para.isEmpty then [] else [para]

/-- The `while` loop of `_chunk_markdown` applied to one stripped paragraph. -/
def wrapPara (maxLen : Nat) (para : List Char) : List (List Char) :=
  wrapGo maxLen para.length para

/-- `_chunk_markdown(text, max_len)`: split on blank lines, strip each
paragraph, drop empty paragraphs, hard-wrap long paragraphs. -/
def chunk_markdown (text : String) (maxLen : Nat) : List String :=
  ((splitNN text.data).flatMap fun p =>
    let p' := pyStripL p
    if p'.isEmpty then [] else wrapPara maxLen p').map fun cs => ⟨cs⟩

/-- `_read_kb_docs`: chunk every document (at the default `max_len = 600`),
strip each chunk and keep the non-blank ones, as `(source, chunk)` pairs.
The sorted `*.md` glob of the knowledge-base directory is modelled by the
`docs : List (path, text)` argument. -/
def read_kb_docs (docs : List (String × String)) : List (String × String) :=
  docs.flatMap fun d =>
    (chunk_markdown d.2 600).filterMap fun ch =>
      let c := pyStrip ch
      if c.isEmpty then none else some (d.1, c)

/-! ## Lexical normalisation (`_strip_accents`, `_tokenize`, `_stem_fr`,
`_lexical_score`) -/

/-- One character of `unicodedata.normalize("NFKD", ·)` followed by dropping
combining marks, restricted to the Latin-1 block (the only non-ASCII
characters the token class admits); identity elsewhere.  Latin-1 letters with
no canonical decomposition (`æ ð ø þ ß × ÷` and their capitals) are unchanged,
exactly as in the source. -/
def deaccentChar (c : Char) : Char :=
  let v := c.toNat
  if 0xC0 ≤ v ∧ v ≤ 0xC5 then 'A'
  else if v = 0xC7 then 'C'
  else if 0xC8 ≤ v ∧ v ≤ 0xCB then 'E'
  else if 0xCC ≤ v ∧ v ≤ 0xCF then 'I'
  else if v = 0xD1 then 'N'
  else if 0xD2 ≤ v ∧ v ≤ 0xD6 then 'O'
  else if 0xD9 ≤ v ∧ v ≤ 0xDC then 'U'
  else if v = 0xDD then 'Y'
  else if 0xE0 ≤ v ∧ v ≤ 0xE5 then 'a'
  else if v = 0xE7 then 'c'
  else if 0xE8 ≤ v ∧ v ≤ 0xEB then 'e'
  else if 0xEC ≤ v ∧ v ≤ 0xEF then 'i'
  else if v = 0xF1 then 'n'
  else if 0xF2 ≤ v ∧ v ≤ 0xF6 then 'o'
  else if 0xF9 ≤ v ∧ v ≤ 0xFC then 'u'
  else if v = 0xFD ∨ v = 0xFF then 'y'
  else c

/-- `_strip_accents`. -/
def strip_accents (s : String) : String :=
  ⟨s.data.map deaccentChar⟩

/-- Python `str.lower()`, exact on Basic Latin and Latin-1 (the range the
token class admits); identity above U+00FF. -/
def lowerChar (c : Char) : Char :=
  let v := c.toNat
  if (0x41 ≤ v ∧ v ≤ 0x5A) ∨ (0xC0 ≤ v ∧ v ≤ 0xD6) ∨ (0xD8 ≤ v ∧ v ≤ 0xDE) then
    Char.ofNat (v + 0x20)
  else c

/-- Python `str.lower()`. -/
def pyLower (s : String) : String :=
  ⟨s.data.map lowerChar⟩

/-- The character class of the token regex `[A-Za-zÀ-ÿ0-9]`: ASCII letters and
digits plus the code points U+00C0–U+00FF (`À`–`ÿ`, which includes `×` and
`÷`). -/
def tokClass (c : Char) : Bool :=
  decide (('A' ≤ c ∧ c ≤ 'Z') ∨ ('a' ≤ c ∧ c ≤ 'z') ∨ ('0' ≤ c ∧ c ≤ '9') ∨
    (0xC0 ≤ c.toNat ∧ c.toNat ≤ 0xFF))

/-- `re.findall(r"[...]+", ·)`: a left-to-right scan collecting the maximal
runs of class characters; `acc` holds the (reversed) run in progress. -/
def tokScan (p : Char → Bool) : List Char → List Char → List (List Char)
  | [], acc => if acc.isEmpty then [] else [acc.reverse]
  | c :: rest, acc =>
    if p c then tokScan p rest (c :: acc)
    else if acc.isEmpty then tokScan p rest []
    else acc.reverse :: tokScan p rest []

/-- `_tokenize`: maximal `[A-Za-zÀ-ÿ0-9]` runs of the lowercased text. -/
def tokenize (text : String) : List String :=
  (tokScan tokClass (pyLower text).data []).map fun cs => ⟨cs⟩

/-- `_FR_SUFFIXES`, in source order (the accented entries are kept even though
they can never match an accent-stripped token, as in the source). -/
def FR_SUFFIXES : List String :=
  ["ations", "ation",
   "tions", "tion",
   "ements", "ement",
   "ments", "ment",
   "ées", "és", "ees", "es",
   "ée", "é", "ee", "e",
   "er", "re", "s"]

/-- `needle` is a leading segment of `hay`. -/
def leadMatch : List Char → List Char → Bool
  | [], _ => true
  | _ :: _, [] => false
  | n :: ns, h :: hs => n == h && leadMatch ns hs

/-- Python `t.endswith(suf)`. -/
def endsWithS (t suf : String) : Bool :=
  leadMatch suf.data.reverse t.data.reverse

/-- Python `t[:-n]` for `0 < n ≤ len t`. -/
def drop_right (t : String) (n : Nat) : String :=
  ⟨t.data.take (t.data.length - n)⟩

/-- The per-suffix test of `_stem_fr`: `t.endswith(suf) and len(t) > len(suf) + 2`. -/
def sufOK (t suf : String) : Bool :=
  endsWithS t suf && decide (suf.length + 2 < t.length)

/-- `_stem_fr`: strip accents, then strip the first suffix in `_FR_SUFFIXES`
order that matches and passes the length guard. -/
def stem_fr (tok : String) : String :=
  let t := strip_accents tok
  match FR_SUFFIXES.find? (fun suf => sufOK t suf) with
  | some suf => drop_right t suf.length
  | none => t

/-- Duplicate removal keeping first occurrences (`seen` accumulates the
elements already kept).  Python's `set` is unordered; only membership and
cardinality of the result are ever used, so any duplicate-free enumeration is
a faithful model. -/
def dedupAcc : List String → List String → List String
  | [], _ => []
  | x :: rest, seen =>
    if seen.contains x then dedupAcc rest seen
    else x :: dedupAcc rest (x :: seen)

/-- The stem set `{_stem_fr(t) for t in _tokenize(x) if len(t) >= 3}`,
as a duplicate-free list. -/
def stems (text : String) : List String :=
  dedupAcc (((tokenize text).filter fun t => decide (3 ≤ t.length)).map stem_fr) []

/-- `_lexical_score`: `|stems(query) ∩ stems(text)|`. -/
def lexical_score (query text : String) : Nat :=
  let qs := stems query
  if qs.isEmpty then 0
  else (qs.filter fun s => (stems text).contains s).length

/-! ## Search helpers (`_NUM_LINE_RE`, `_is_numbered_steps`, `_norm`) -/

/-- The regex `\s*\d+\.\s` anchored at the current position: optional
whitespace, one or more ASCII digits, a period, one whitespace character.
(The source pattern's `\d` also admits non-ASCII decimal digits; none occur in
any input of this development.) -/
def matchNumAt (cs : List Char) : Bool :=
  let r1 := cs.dropWhile isPySpace
  match r1 with
  | d :: _ =>
    d.isDigit &&
      (match r1.dropWhile Char.isDigit with
       | '.' :: w :: _ => isPySpace w
       | _ => false)
  | [] => false

/-- The anchors of `re.MULTILINE` `^` other than the start of the string:
the position right after each `'\n'`. -/
def afterNewlines : List Char → Bool
  | [] => false
  | c :: rest => (c == '\n' && matchNumAt rest) || afterNewlines rest

/-- `_is_numbered_steps`: some `^`-anchored position matches `\s*\d+\.\s`. -/
def is_numbered_steps (text : String) : Bool :=
  matchNumAt text.data || afterNewlines text.data

/-- `_norm`: lowercase then strip accents. -/
def norm (s : String) : String :=
  strip_accents (pyLower s)

/-- `needle in hay` on character lists (Python substring containment). -/
def occursIn (needle : List Char) : List Char → Bool
  | [] => needle.isEmpty
  | c :: rest => leadMatch needle (c :: rest) || occursIn needle rest

/-- Python `needle in hay` on strings. -/
def containsSub (hay needle : String) : Bool :=
  occursIn needle.data hay.data

/-! ## The fusion / guarantee pipeline (`retrieve_snippets`) -/

/-- `Snippet` (a dataclass): `score` is the composite, lower is better. -/
structure Snippet where
  content : String
  source : String
  score : ℚ
  deriving DecidableEq, Repr

/-- The `1e9` sentinel-worst vector score. -/
def sentinel : ℚ := 1000000000

/-- The result of the guarded provider call: `except Exception: pass` turns a
raised error into an empty candidate list. -/
def vector_candidates (res : Except Unit (List (String × ℚ × String))) :
    List (String × ℚ × String) :=
  match res with
  | .error _ => []
  | .ok hits => hits

/-- The lexical candidate pass: every corpus chunk with positive lexical
score, with a `+1` bonus on the stored score for numbered-step chunks,
as `(chunk, lex, source)`. -/
def lex_candidates (query : String) (docs : List (String × String)) :
    List (String × Nat × String) :=
  (read_kb_docs docs).filterMap fun sc =>
    let lex := lexical_score query sc.2
    if 0 < lex then
      some (sc.2, (if is_numbered_steps sc.2 then lex + 1 else lex), sc.1)
    else none

/-- Python dict assignment `m[k] = v` on an insertion-ordered association
list: overwrite in place, else append. -/
def setKV : List ((String × String) × (Nat × ℚ)) → (String × String) → (Nat × ℚ) →
    List ((String × String) × (Nat × ℚ))
  | [], k, v => [(k, v)]
  | (k', v') :: rest, k, v =>
    if k' = k then (k, v) :: rest else (k', v') :: setKV rest k v

/-- Association-list lookup. -/
def lookupKV : List ((String × String) × (Nat × ℚ)) → (String × String) →
    Option (Nat × ℚ)
  | [], _ => none
  | (k', v') :: rest, k => if k' = k then some v' else lookupKV rest k

/-- One vector-candidate merge step:
`lex, _ = combined[key]; combined[key] = (lex, min(vscore, combined[key][1]))`
with the `defaultdict` default `(0, 1e9)`. -/
def step_vec (m : List ((String × String) × (Nat × ℚ))) (c : String × ℚ × String) :
    List ((String × String) × (Nat × ℚ)) :=
  let key := (c.1, c.2.2)
  let prev := (lookupKV m key).getD (0, sentinel)
  setKV m key (prev.1, min c.2.1 prev.2)

/-- One lexical-candidate merge step:
`_, vscore = combined[key]; combined[key] = (max(lex, combined[key][0]), vscore)`. -/
def step_lex (m : List ((String × String) × (Nat × ℚ))) (c : String × Nat × String) :
    List ((String × String) × (Nat × ℚ)) :=
  let key := (c.1, c.2.2)
  let prev := (lookupKV m key).getD (0, sentinel)
  setKV m key (max c.2.1 prev.1, prev.2)

/-- The merged candidate mapping `combined`, keyed by `(content, source)`,
including the all-chunks fallback when both passes produced nothing. -/
def combinedMap (query : String) (docs : List (String × String))
    (res : Except Unit (List (String × ℚ × String))) :
    List ((String × String) × (Nat × ℚ)) :=
  let m1 := (vector_candidates res).foldl step_vec []
  let m2 := (lex_candidates query docs).foldl step_lex m1
  if m2.isEmpty then
    (read_kb_docs docs).foldl (fun m sc => setKV m (sc.2, sc.1) (0, sentinel)) []
  else m2

/-- Python's `<` on strings: lexicographic comparison of code points. -/
def charsLt : List Char → List Char → Bool
  | [], [] => false
  | [], _ :: _ => true
  | _ :: _, [] => false
  | a :: as, b :: bs =>
    if a.toNat ≠ b.toNat then decide (a.toNat < b.toNat) else charsLt as bs

/-- Python's `<` on strings. -/
def strLt (a b : String) : Bool :=
  charsLt a.data b.data

/-- The sort key comparison of the ranking step, as a `≤` on the Python key
tuples `(-_lexical_score(query, content), score, source, content)`. -/
def snipLE (query : String) (a b : Snippet) : Bool :=
  let la := lexical_score query a.content
  let lb := lexical_score query b.content
  if la ≠ lb then decide (lb < la)
  else if a.score ≠ b.score then decide (a.score < b.score)
  else if a.source ≠ b.source then strLt a.source b.source
  else strLt a.content b.content || (a.content == b.content)

/-- Insert `a` into `l` before the first element it compares `le` to
(insertion step of a stable insertion sort). -/
def insertLe (le : α → α → Bool) (a : α) : List α → List α
  | [] => [a]
  | b :: l =>
    match le a b with
    | true => a :: b :: l
    | false => b :: insertLe le a l

/-- Stable insertion sort by a boolean `≤`-comparator: the model of Python's
stable `sorted`.  The ranking key is injective on distinct `(content, source)`
entries, so the sorted result is unique and any correct sort realises it. -/
def sortByLe (le : α → α → Bool) : List α → List α
  | [] => []
  | b :: l => insertLe le b (sortByLe le l)

/-- `items`: the merged candidates with their composite score
`(1 - _lexical_score(query, content)) + vscore` (the stored lexical value is
discarded here, as in the source), sorted. -/
def rankedItems (query : String) (docs : List (String × String))
    (res : Except Unit (List (String × ℚ × String))) : List Snippet :=
  sortByLe (snipLE query)
    ((combinedMap query docs res).map fun e =>
      ⟨e.1.1, e.1.2, ((1 : ℚ) - (lexical_score query e.1.1 : ℚ)) + e.2.2⟩)

/-- The Python `IndexError` raised by `top[-1] = ...` on an empty list. -/
inductive PyErr where
  | indexError
  deriving DecidableEq, Repr

instance exceptDecEq {ε α : Type} [DecidableEq ε] [DecidableEq α] :
    DecidableEq (Except ε α) := fun a b =>
  match a, b with
  | .error e, .error f =>
    if h : e = f then isTrue (by rw [h]) else isFalse (by simp [h])
  | .error _, .ok _ => isFalse (by simp)
  | .ok _, .error _ => isFalse (by simp)
  | .ok x, .ok y =>
    if h : x = y then isTrue (by rw [h]) else isFalse (by simp [h])

/-- `top[-1] = x`: replace the last element, `IndexError` on an empty list. -/
def setLast (l : List Snippet) (x : Snippet) : Except PyErr (List Snippet) :=
  match l with
  | [] => .error .indexError
  | _ :: _ => .ok (l.dropLast ++ [x])

/-- The `(content, source)` identity test of the guarantee dedup guard. -/
def sameKey (a b : Snippet) : Bool :=
  a.content == b.content && a.source == b.source

/-- The common shape of the two guarantee splices: if no `top` entry satisfies
`condTop`, find the first ranked item satisfying `condItem` and, unless
already present by `(content, source)` identity, splice it in — replacing the
last slot if `top` is at size `k`, else appending. -/
def ensureStep (condTop condItem : Snippet → Bool) (items top : List Snippet)
    (k : Nat) : Except PyErr (List Snippet) :=
  if top.any condTop then .ok top
  else
    match items.find? condItem with
    | none => .ok top
    | some cand =>
      if top.all (fun s => !sameKey cand s) then
        if top.length = k then setLast top cand else .ok (top ++ [cand])
      else .ok top

/-- Guarantee (1): at least one relevant numbered-step paragraph. -/
def step4 (query : String) (items top : List Snippet) (k : Nat) :
    Except PyErr (List Snippet) :=
  ensureStep (fun sn => is_numbered_steps sn.content)
    (fun sn => is_numbered_steps sn.content && decide (0 < lexical_score query sn.content))
    items top k

/-- `_norm("lien de réinitialisation")`, the hard-coded guarantee phrase. -/
def phraseStr : String := norm "lien de réinitialisation"

/-- `phrase in _norm(sn.content)`. -/
def hasPhrase (sn : Snippet) : Bool :=
  containsSub (norm sn.content) phraseStr

/-- Guarantee (2): the reset-link phrase, when some ranked item carries it. -/
def step5 (items top : List Snippet) (k : Nat) : Except PyErr (List Snippet) :=
  ensureStep hasPhrase hasPhrase items top k

/-- `retrieve_snippets(query, k, kb_dir, persist_dir)`: the knowledge base is
the `docs` list, the provider call result is `res`.  Returns the final
snippets (the source wraps each in a dict, formatting the score to six
decimals — pure presentation). -/
def retrieve_snippets (query : String) (k : Nat) (docs : List (String × String))
    (res : Except Unit (List (String × ℚ × String))) :
    Except PyErr (List Snippet) :=
  let items := rankedItems query docs res
  let top := items.take k
  match step4 query items top k with
  | .error e => .error e
  | .ok t2 =>
    match step5 items t2 k with
    | .error e => .error e
    | .ok t3 => .ok (t3.take k)

/-! ## Definitions following the spec's words (for the refinement claims) -/

/-- Modelled from the spec: strips "the longest matching suffix" of
`_FR_SUFFIXES`, subject to the same guard (remaining stem longer than
`len(suffix) + 2`); unchanged when no suffix qualifies.  Stated for
comparison with `stem_fr`, which tries the suffixes in list order. -/
def stemSpecLongest (tok : String) : String :=
  let t := strip_accents tok
  let best := (FR_SUFFIXES.filter fun suf => sufOK t suf).foldl
    (fun best s =>
      match best with
      | none => some s
      | some b => if b.length < s.length then some s else best)
    none
  match best with
  | some suf => drop_right t suf.length
  | none => t

/-- Modelled from the spec: the Unicode letter-or-digit property ("Unicode
letters and digits").  Exact (per Unicode categories `L*`/`Nd`) on code
points up to U+017F — in particular `×` (U+00D7) and `÷` (U+00F7) are not
letters while `ª µ º` and everything in U+00C0–U+00FF apart from those two
are; code points above U+017F are not classified by this development. -/
def isUnicodeLetterOrDigit (c : Char) : Bool :=
  let v := c.toNat
  decide (('A' ≤ c ∧ c ≤ 'Z') ∨ ('a' ≤ c ∧ c ≤ 'z') ∨ ('0' ≤ c ∧ c ≤ '9') ∨
    v = 0xAA ∨ v = 0xB5 ∨ v = 0xBA ∨
    (0xC0 ≤ v ∧ v ≤ 0xFF ∧ v ≠ 0xD7 ∧ v ≠ 0xF7) ∨
    (0x100 ≤ v ∧ v ≤ 0x17F))

/-- The pieces of a character list between (removed) non-class characters;
consecutive separators and boundary separators produce empty pieces. -/
def splitRuns (p : Char → Bool) (cs : List Char) : List (List Char) :=
  cs.foldr (fun c acc => if p c then (c :: acc.headD []) :: acc.tail else [] :: acc) [[]]

/-- Modelled from the amended description of `_tokenize`: the maximal runs of
characters of class `p`. -/
def classRuns (p : Char → Bool) (cs : List Char) : List (List Char) :=
  (splitRuns p cs).filter fun r => !r.isEmpty

/-! ## Concrete corpora used by counterexamples and witnesses -/

/-- A one-document corpus with a numbered-step chunk and a plain chunk that
tie on raw lexical score against the query `"alpha beta"`. -/
def docsA : List (String × String) :=
  [("kb.md", "zz alpha beta\n1. go\n\nalpha beta")]

/-- A corpus whose second document consists of the guarantee phrase and
shares no stems with the query `"alpha beta"`. -/
def docsB : List (String × String) :=
  [("a.md", "alpha beta gamma"), ("b.md", "lien de réinitialisation")]

/-- A one-chunk corpus sharing no stems with the query `"xyz"`. -/
def docsC : List (String × String) :=
  [("a.md", "bonjour")]

/-- The `(content, source)` identity of a snippet. -/
def pairOf (sn : Snippet) : String × String :=
  (sn.content, sn.source)

/-! ## Theorems -/

/-! ### Generic helper lemmas -/

theorem find_first_char {α : Type} (p : α → Bool) (l : List α) :
    (l.find? p = none ∧ ∀ a ∈ l, p a = false) ∨
    ∃ i, ∃ h : i < l.length, p (l.get ⟨i, h⟩) = true ∧
      l.find? p = some (l.get ⟨i, h⟩) ∧
      ∀ j, ∀ hj : j < i, p (l.get ⟨j, Nat.lt_trans hj h⟩) = false := by
  induction l with
  | nil => exact Or.inl ⟨rfl, by simp⟩
  | cons a l ih =>
    cases hp : p a with
    | true =>
      refine Or.inr ⟨0, Nat.succ_pos _, ?_, ?_, ?_⟩
      · simpa using hp
      · simp [List.find?_cons_of_pos, hp]
      · intro j hj; exact absurd hj (Nat.not_lt_zero j)
    | false =>
      rcases ih with ⟨hnone, hall⟩ | ⟨i, h, hpi, hfind, hprev⟩
      · refine Or.inl ⟨?_, ?_⟩
        · simp [List.find?_cons_of_neg, hp, hnone]
        · intro x hx
          rcases List.mem_cons.mp hx with rfl | hx
          · exact hp
          · exact hall x hx
      · refine Or.inr ⟨i + 1, Nat.succ_lt_succ h, ?_, ?_, ?_⟩
        · simpa using hpi
        · simp [List.find?_cons_of_neg, hp, hfind]
        · intro j hj
          cases j with
          | zero => simpa using hp
          | succ j => simpa using hprev j (Nat.lt_of_succ_lt_succ hj)

theorem insertLe_perm (le : α → α → Bool) (a : α) :
    ∀ l : List α, List.Perm (insertLe le a l) (a :: l) := by
  intro l
  induction l with
  | nil => exact List.Perm.refl _
  | cons b l ih =>
    unfold insertLe
    cases le a b with
    | true => exact List.Perm.refl _
    | false =>
      exact (List.Perm.cons _ ih).trans (List.Perm.swap _ _ _)

theorem sortByLe_perm (le : α → α → Bool) :
    ∀ l : List α, List.Perm (sortByLe le l) l := by
  intro l
  induction l with
  | nil => exact List.Perm.refl _
  | cons b l ih =>
    exact (insertLe_perm le b _).trans (List.Perm.cons b ih)

/-! ### Lemmas about the merged candidate map -/

theorem setKV_ne_nil (m : List ((String × String) × (Nat × ℚ)))
    (k : String × String) (v : Nat × ℚ) : setKV m k v ≠ [] := by
  cases m with
  | nil => simp [setKV]
  | cons h t =>
    simp only [setKV]
    split <;> simp

theorem mem_keys_setKV (m : List ((String × String) × (Nat × ℚ)))
    (k : String × String) (v : Nat × ℚ) (a : String × String) :
    a ∈ (setKV m k v).map Prod.fst ↔ a ∈ m.map Prod.fst ∨ a = k := by
  induction m with
  | nil => simp [setKV]
  | cons h t ih =>
    simp only [setKV]
    split
    · rename_i heq
      subst heq
      simp only [List.map_cons, List.mem_cons]
      tauto
    · simp only [List.map_cons, List.mem_cons, ih]
      tauto

theorem keys_nodup_setKV (m : List ((String × String) × (Nat × ℚ)))
    (k : String × String) (v : Nat × ℚ) (h : (m.map Prod.fst).Nodup) :
    ((setKV m k v).map Prod.fst).Nodup := by
  induction m with
  | nil => simp [setKV]
  | cons hd t ih =>
    simp only [setKV]
    split
    · rename_i heq
      subst heq
      simpa using h
    · rename_i hne
      simp only [List.map_cons, List.nodup_cons] at h ⊢
      refine ⟨?_, ih h.2⟩
      intro hmem
      rcases (mem_keys_setKV t k v hd.1).mp hmem with hm | heq
      · exact h.1 hm
      · exact hne heq

theorem mem_setKV (m : List ((String × String) × (Nat × ℚ)))
    (k : String × String) (v : Nat × ℚ) (x : (String × String) × (Nat × ℚ))
    (h : x ∈ setKV m k v) : x ∈ m ∨ x = (k, v) := by
  induction m with
  | nil => simpa [setKV] using h
  | cons hd t ih =>
    simp only [setKV] at h
    split at h
    · rcases List.mem_cons.mp h with rfl | hx
      · exact Or.inr rfl
      · exact Or.inl (List.mem_cons_of_mem _ hx)
    · rcases List.mem_cons.mp h with rfl | hx
      · exact Or.inl (List.mem_cons_self _ _)
      · rcases ih hx with hm | rfl
        · exact Or.inl (List.mem_cons_of_mem _ hm)
        · exact Or.inr rfl

theorem keys_nodup_foldl_setKV {β : Type}
    (f : List ((String × String) × (Nat × ℚ)) → β → List ((String × String) × (Nat × ℚ)))
    (hf : ∀ m x, ∃ k v, f m x = setKV m k v) :
    ∀ (L : List β) (m), (m.map Prod.fst).Nodup → ((L.foldl f m).map Prod.fst).Nodup := by
  intro L
  induction L with
  | nil => exact fun m h => h
  | cons x L ih =>
    intro m h
    obtain ⟨k, v, he⟩ := hf m x
    rw [List.foldl_cons, he]
    exact ih _ (keys_nodup_setKV m k v h)

theorem foldl_setKV_ne_nil {β : Type}
    (f : List ((String × String) × (Nat × ℚ)) → β → List ((String × String) × (Nat × ℚ)))
    (hf : ∀ m x, ∃ k v, f m x = setKV m k v) :
    ∀ (L : List β) (m), m ≠ [] ∨ L ≠ [] → L.foldl f m ≠ [] := by
  intro L
  induction L with
  | nil =>
    intro m h
    simpa using h.resolve_right (by simp)
  | cons x L ih =>
    intro m _
    rw [List.foldl_cons]
    obtain ⟨k, v, he⟩ := hf m x
    exact ih _ (Or.inl (he ▸ setKV_ne_nil m k v))

theorem mem_foldl_setKV_fallback :
    ∀ (L : List (String × String)) (m)
      (x : (String × String) × (Nat × ℚ)),
      x ∈ L.foldl (fun m sc => setKV m (sc.2, sc.1) (0, sentinel)) m →
      x ∈ m ∨ ∃ b ∈ L, x = ((b.2, b.1), (0, sentinel)) := by
  intro L
  induction L with
  | nil => exact fun m x h => Or.inl h
  | cons b L ih =>
    intro m x h
    rw [List.foldl_cons] at h
    rcases ih _ x h with hm | ⟨b', hb', rfl⟩
    · rcases mem_setKV _ _ _ _ hm with hm' | rfl
      · exact Or.inl hm'
      · exact Or.inr ⟨b, List.mem_cons_self _ _, rfl⟩
    · exact Or.inr ⟨b', List.mem_cons_of_mem _ hb', rfl⟩

theorem combined_keys_nodup (q : String) (docs : List (String × String))
    (res : Except Unit (List (String × ℚ × String))) :
    ((combinedMap q docs res).map Prod.fst).Nodup := by
  have h1 : (((vector_candidates res).foldl step_vec []).map Prod.fst).Nodup :=
    keys_nodup_foldl_setKV step_vec (fun m c => ⟨_, _, rfl⟩) _ [] (by simp)
  have h2 : (((lex_candidates q docs).foldl step_lex
      ((vector_candidates res).foldl step_vec [])).map Prod.fst).Nodup :=
    keys_nodup_foldl_setKV step_lex (fun m c => ⟨_, _, rfl⟩) _ _ h1
  have h3 : (((read_kb_docs docs).foldl
      (fun m sc => setKV m (sc.2, sc.1) (0, sentinel)) []).map Prod.fst).Nodup :=
    keys_nodup_foldl_setKV _ (fun m sc => ⟨_, _, rfl⟩) _ [] (by simp)
  simp only [combinedMap]
  split
  · exact h3
  · exact h2

/-! ### Lemmas about the guarantee splices -/

theorem sameKey_iff (a b : Snippet) : sameKey a b = true ↔ pairOf a = pairOf b := by
  simp [sameKey, pairOf, Prod.ext_iff]

theorem setLast_of_ne_nil (l : List Snippet) (x : Snippet) (h : l ≠ []) :
    setLast l x = .ok (l.dropLast ++ [x]) := by
  cases l with
  | nil => exact absurd rfl h
  | cons a t => rfl

/-- Everything `ensureStep` guarantees when it cannot raise: for `k ≥ 1` and a
`top` within bounds it succeeds, preserves the bounds, the `k`-fullness, the
provenance of entries and the `(content, source)` dedup invariant, and never
empties a non-empty `top`. -/
theorem ensureStep_ok (c1 c2 : Snippet → Bool) (items top : List Snippet)
    (k : Nat) (hk : 1 ≤ k) (hlen : top.length ≤ k) :
    ∃ t, ensureStep c1 c2 items top k = Except.ok t ∧
      t.length ≤ k ∧
      (top.length = k → t.length = k) ∧
      (∀ x ∈ t, x ∈ top ∨ x ∈ items) ∧
      ((top.map pairOf).Nodup → (t.map pairOf).Nodup) ∧
      (top ≠ [] → t ≠ []) := by
  unfold ensureStep
  split
  · exact ⟨top, rfl, hlen, fun h => h, fun x hx => Or.inl hx, id, id⟩
  · split
    · exact ⟨top, rfl, hlen, fun h => h, fun x hx => Or.inl hx, id, id⟩
    · rename_i cand hfind
      have hcand : cand ∈ items := List.mem_of_find?_eq_some hfind
      split
      · rename_i hall
        have hnot : ∀ s ∈ top, pairOf cand ≠ pairOf s := by
          intro s hs heq
          have h1 := List.all_eq_true.mp hall s hs
          rw [Bool.not_eq_true'] at h1
          rw [(sameKey_iff cand s).mpr heq] at h1
          exact Bool.noConfusion h1
        by_cases hlk : top.length = k
        · have hne : top ≠ [] := by
            intro h
            rw [h] at hlk
            simp at hlk
            omega
          rw [if_pos hlk, setLast_of_ne_nil top cand hne]
          refine ⟨top.dropLast ++ [cand], rfl, ?_, ?_, ?_, ?_, ?_⟩
          · have : 0 < top.length := by omega
            simp [List.length_dropLast]
            omega
          · intro _
            have : 0 < top.length := by omega
            simp [List.length_dropLast]
            omega
          · intro x hx
            rcases List.mem_append.mp hx with hx | hx
            · exact Or.inl ((List.dropLast_sublist top).subset hx)
            · rw [List.mem_singleton.mp hx]
              exact Or.inr hcand
          · intro hnd
            rw [List.map_append]
            apply List.Nodup.append
            · exact hnd.sublist ((List.dropLast_sublist top).map pairOf)
            · simp
            · intro a ha hb
              have hb' : a = pairOf cand := by simpa using hb
              subst hb'
              rcases List.mem_map.mp ha with ⟨s, hs, hps⟩
              exact hnot s ((List.dropLast_sublist top).subset hs) hps.symm
          · intro _
            simp
        · rw [if_neg hlk]
          refine ⟨top ++ [cand], rfl, ?_, ?_, ?_, ?_, ?_⟩
          · simp
            omega
          · intro h
            exact absurd h hlk
          · intro x hx
            rcases List.mem_append.mp hx with hx | hx
            · exact Or.inl hx
            · rw [List.mem_singleton.mp hx]
              exact Or.inr hcand
          · intro hnd
            rw [List.map_append]
            apply List.Nodup.append hnd (by simp)
            intro a ha hb
            have hb' : a = pairOf cand := by simpa using hb
            subst hb'
            rcases List.mem_map.mp ha with ⟨s, hs, hps⟩
            exact hnot s hs hps.symm
          · intro _
            simp
      · exact ⟨top, rfl, hlen, fun h => h, fun x hx => Or.inl hx, id, id⟩

/-- When some `top` entry already satisfies the guard, the splice is a no-op. -/
theorem ensureStep_noop (c1 c2 : Snippet → Bool) (items top : List Snippet)
    (k : Nat) (h : ∃ sn ∈ top, c1 sn = true) :
    ensureStep c1 c2 items top k = .ok top := by
  unfold ensureStep
  rw [if_pos]
  obtain ⟨sn, hsn, hc⟩ := h
  exact List.any_eq_true.mpr ⟨sn, hsn, hc⟩

/-- When the guard predicate depends only on the content, no `top` entry
satisfies it, some ranked item does, and `top` is at size `k ≥ 1`, the splice
replaces the last slot with a satisfying item. -/
theorem ensureStep_insert (P : String → Bool) (items top : List Snippet)
    (k : Nat) (hk : 1 ≤ k) (hlen : top.length = k)
    (hnone : ∀ sn ∈ top, P sn.content = false)
    (hex : ∃ sn ∈ items, P sn.content = true) :
    ∃ t, ensureStep (fun sn => P sn.content) (fun sn => P sn.content) items top k =
        .ok t ∧ t.length = k ∧ ∃ sn ∈ t, P sn.content = true := by
  unfold ensureStep
  have hany : ¬(top.any (fun sn => P sn.content) = true) := by
    rw [List.any_eq_true]
    rintro ⟨sn, hsn, hc⟩
    rw [hnone sn hsn] at hc
    exact Bool.false_ne_true hc
  rw [if_neg hany]
  split
  · rename_i hfind
    rw [List.find?_eq_none] at hfind
    obtain ⟨sn, hsn, hc⟩ := hex
    exact absurd hc (hfind sn hsn)
  · rename_i cand hfind
    have hPc : P cand.content = true := by
      have := List.find?_some hfind
      simpa using this
    have hall : (top.all fun s => !sameKey cand s) = true := by
      rw [List.all_eq_true]
      intro s hs
      rw [Bool.not_eq_true']
      cases hsk : sameKey cand s with
      | false => rfl
      | true =>
        exfalso
        have hcs : cand.content = s.content :=
          congrArg Prod.fst ((sameKey_iff cand s).mp hsk)
        have h2 := hnone s hs
        rw [← hcs, hPc] at h2
        exact Bool.noConfusion h2
    have hne : top ≠ [] := by
      intro h
      rw [h] at hlen
      simp at hlen
      omega
    rw [if_pos hall, if_pos hlen, setLast_of_ne_nil top cand hne]
    refine ⟨top.dropLast ++ [cand], rfl, ?_, cand, by simp, hPc⟩
    have : 0 < top.length := by omega
    simp [List.length_dropLast]
    omega

/-! ### Lemmas about the ranked list and the full pipeline -/

theorem rankedItems_perm (q : String) (docs : List (String × String))
    (res : Except Unit (List (String × ℚ × String))) :
    List.Perm (rankedItems q docs res)
      ((combinedMap q docs res).map fun e =>
        ⟨e.1.1, e.1.2, ((1 : ℚ) - (lexical_score q e.1.1 : ℚ)) + e.2.2⟩) :=
  sortByLe_perm _ _

theorem rankedItems_pairs_nodup (q : String) (docs : List (String × String))
    (res : Except Unit (List (String × ℚ × String))) :
    ((rankedItems q docs res).map pairOf).Nodup := by
  have hperm := (rankedItems_perm q docs res).map pairOf
  rw [hperm.nodup_iff, List.map_map]
  have hfun : (pairOf ∘ fun e : (String × String) × (Nat × ℚ) =>
      (⟨e.1.1, e.1.2, ((1 : ℚ) - (lexical_score q e.1.1 : ℚ)) + e.2.2⟩ : Snippet)) =
      Prod.fst := by
    funext e
    exact Prod.mk.eta
  rw [hfun]
  exact combined_keys_nodup q docs res

theorem mem_rankedItems {q : String} {docs : List (String × String)}
    {res : Except Unit (List (String × ℚ × String))} {sn : Snippet}
    (h : sn ∈ rankedItems q docs res) :
    ∃ e ∈ combinedMap q docs res,
      sn = ⟨e.1.1, e.1.2, ((1 : ℚ) - (lexical_score q e.1.1 : ℚ)) + e.2.2⟩ := by
  have hm := (rankedItems_perm q docs res).mem_iff.mp h
  rcases List.mem_map.mp hm with ⟨e, he, heq⟩
  exact ⟨e, he, heq.symm⟩

theorem rankedItems_ne_nil {q : String} {docs : List (String × String)}
    {res : Except Unit (List (String × ℚ × String))}
    (h : combinedMap q docs res ≠ []) : rankedItems q docs res ≠ [] := by
  intro hnil
  have hl := (rankedItems_perm q docs res).length_eq
  rw [hnil] at hl
  simp at hl
  exact h (List.length_eq_zero.mp hl.symm)

/-- Running the full pipeline with `k ≥ 1` always succeeds, and the result is
bounded by `k`, duplicate-free, drawn from the ranked list, and non-empty
whenever the ranked list is. -/
theorem retrieve_ok (q : String) (k : Nat) (docs : List (String × String))
    (res : Except Unit (List (String × ℚ × String))) (hk : 1 ≤ k) :
    ∃ out, retrieve_snippets q k docs res = .ok out ∧
      out.length ≤ k ∧
      (out.map pairOf).Nodup ∧
      (∀ x ∈ out, x ∈ rankedItems q docs res) ∧
      (rankedItems q docs res ≠ [] → out ≠ []) := by
  obtain ⟨t2, he2, hlen2, hfix2, hmem2, hnd2, hne2⟩ :=
    ensureStep_ok (fun sn => is_numbered_steps sn.content)
      (fun sn => is_numbered_steps sn.content && decide (0 < lexical_score q sn.content))
      (rankedItems q docs res) ((rankedItems q docs res).take k) k hk
      (by simp [List.length_take])
  obtain ⟨t3, he3, hlen3, hfix3, hmem3, hnd3, hne3⟩ :=
    ensureStep_ok hasPhrase hasPhrase (rankedItems q docs res) t2 k hk hlen2
  have hs4 : step4 q (rankedItems q docs res) ((rankedItems q docs res).take k) k =
      .ok t2 := he2
  have hs5 : step5 (rankedItems q docs res) t2 k = .ok t3 := he3
  have htknd : (((rankedItems q docs res).take k).map pairOf).Nodup :=
    (rankedItems_pairs_nodup q docs res).sublist
      ((List.take_sublist k (rankedItems q docs res)).map pairOf)
  refine ⟨t3.take k, ?_, ?_, ?_, ?_, ?_⟩
  · simp only [retrieve_snippets]
    rw [hs4]
    dsimp only
    rw [hs5]
  · simp [List.length_take]
  · exact ((hnd3 (hnd2 htknd)).sublist ((List.take_sublist k t3).map pairOf))
  · intro x hx
    have hx3 : x ∈ t3 := (List.take_subset k t3) hx
    rcases hmem3 x hx3 with hx2 | hxi
    · rcases hmem2 x hx2 with hxt | hxi
      · exact (List.take_subset k _) hxt
      · exact hxi
    · exact hxi
  · intro hitems
    have htk : (rankedItems q docs res).take k ≠ [] := by
      intro hnil
      have := congrArg List.length hnil
      simp [List.length_take] at this
      rcases this with h1 | h1
      · omega
      · exact hitems h1
    have ht3 : t3 ≠ [] := hne3 (hne2 htk)
    intro hnil
    have := congrArg List.length hnil
    simp [List.length_take] at this
    rcases this with h1 | h1
    · omega
    · exact ht3 h1

unseal Rat.add Rat.sub in
/-- C1: the `+1` numbered-step bonus is stored in the merged candidate map
(`lex_candidates` gives the numbered chunk 3 and the plain chunk 2), but the
ranking recomputes the raw lexical score (both 2) and discards the stored
value, so the plain chunk ranks first by the content tie-break — the bonused
score is not the primary sort key. -/
theorem c1_bonus_not_ranking_key :
    (lex_candidates "alpha beta" docsA).map (fun c => (c.1, c.2.1)) =
      [("zz alpha beta\n1. go", 3), ("alpha beta", 2)] ∧
    (rankedItems "alpha beta" docsA (.error ())).map Snippet.content =
      ["alpha beta", "zz alpha beta\n1. go"] := by
  decide

/-- C4: `_chunk_markdown("xxx   yyy", 3)` emits the empty chunk produced by
stripping the all-whitespace middle slice, contradicting the contract that
every chunk is non-empty. -/
theorem c4_empty_chunk_bug :
    chunk_markdown "xxx   yyy" 3 = ["xxx", "", "yyy"] := by
  decide

/-- C2: for every query, corpus, provider outcome and `k ≥ 1`, the list
returned by `retrieve_snippets` has length at most `k` and never contains two
entries with the same `(content, source)` pair. -/
theorem c2_card_nodup (q : String) (k : Nat) (docs : List (String × String))
    (res : Except Unit (List (String × ℚ × String))) (hk : 1 ≤ k)
    (out : List Snippet) (hout : retrieve_snippets q k docs res = .ok out) :
    out.length ≤ k ∧ (out.map pairOf).Nodup := by
  obtain ⟨out', he, hlen, hnd, _, _⟩ := retrieve_ok q k docs res hk
  rw [hout] at he
  have heq : out = out' := Except.ok.inj he
  subst heq
  exact ⟨hlen, hnd⟩

unseal Rat.add Rat.sub in
theorem c2_card_nodup_witness :
    retrieve_snippets "alpha beta" 1 docsA (.error ()) =
      .ok [⟨"zz alpha beta\n1. go", "kb.md", 999999999⟩] ∧
    ([(⟨"zz alpha beta\n1. go", "kb.md", 999999999⟩ : Snippet)].length ≤ 1 ∧
      (([(⟨"zz alpha beta\n1. go", "kb.md", 999999999⟩ : Snippet)]).map pairOf).Nodup) :=
  ⟨by decide,
   c2_card_nodup "alpha beta" 1 docsA (.error ()) (by decide) _ (by decide)⟩

/-- C5: over a non-empty corpus, a query sharing no stems with any chunk and a
vector provider that raised or returned nothing trigger the all-chunks
fallback: the result (for `k ≥ 1`) is non-empty, every entry is a corpus
chunk, and every entry carries the sentinel composite score
`(1 - 0) + 1e9`. -/
theorem c5_fallback (q : String) (k : Nat) (docs : List (String × String))
    (res : Except Unit (List (String × ℚ × String))) (hk : 1 ≤ k)
    (hne : read_kb_docs docs ≠ [])
    (hlex : ∀ sc ∈ read_kb_docs docs, lexical_score q sc.2 = 0)
    (hvec : vector_candidates res = []) :
    ∃ out, retrieve_snippets q k docs res = .ok out ∧ out ≠ [] ∧
      ∀ sn ∈ out, (sn.source, sn.content) ∈ read_kb_docs docs ∧
        sn.score = 1 + sentinel := by
  have hlexc : lex_candidates q docs = [] := by
    unfold lex_candidates
    rw [List.filterMap_eq_nil_iff]
    intro sc hsc
    simp [hlex sc hsc]
  have hcomb : combinedMap q docs res =
      (read_kb_docs docs).foldl (fun m sc => setKV m (sc.2, sc.1) (0, sentinel)) [] := by
    unfold combinedMap
    rw [hvec, hlexc]
    simp
  have hcomb_ne : combinedMap q docs res ≠ [] := by
    rw [hcomb]
    exact foldl_setKV_ne_nil _ (fun m sc => ⟨_, _, rfl⟩) _ [] (Or.inr hne)
  have hitems_ne := rankedItems_ne_nil hcomb_ne
  have hprop : ∀ sn ∈ rankedItems q docs res,
      (sn.source, sn.content) ∈ read_kb_docs docs ∧ sn.score = 1 + sentinel := by
    intro sn hsn
    obtain ⟨e, he, rfl⟩ := mem_rankedItems hsn
    rw [hcomb] at he
    rcases mem_foldl_setKV_fallback _ _ _ he with h0 | ⟨b, hb, rfl⟩
    · simp at h0
    · refine ⟨by simpa using hb, ?_⟩
      have h0 := hlex b hb
      simp [h0]
  obtain ⟨out, he, _, _, hmem, hne'⟩ := retrieve_ok q k docs res hk
  exact ⟨out, he, hne' hitems_ne, fun sn hsn => hprop sn (hmem sn hsn)⟩

unseal Rat.add Rat.sub in
theorem c5_fallback_witness :
    (read_kb_docs docsC ≠ [] ∧
      (∀ sc ∈ read_kb_docs docsC, lexical_score "xyz" sc.2 = 0) ∧
      vector_candidates (.error ()) = []) ∧
    (∃ out, retrieve_snippets "xyz" 1 docsC (.error ()) = .ok out ∧ out ≠ [] ∧
      ∀ sn ∈ out, (sn.source, sn.content) ∈ read_kb_docs docsC ∧
        sn.score = 1 + sentinel) :=
  ⟨⟨by decide, by decide, by decide⟩,
   c5_fallback "xyz" 1 docsC (.error ()) (by decide) (by decide) (by decide) rfl⟩

/-- C6: a raised provider exception is swallowed and the pipeline proceeds
exactly as if the provider had returned zero candidates; no provider
exception reaches the caller (the return type carries only the engine's own
`IndexError`). -/
theorem c6_provider_error_swallowed (q : String) (k : Nat)
    (docs : List (String × String)) :
    retrieve_snippets q k docs (.error ()) = retrieve_snippets q k docs (.ok []) :=
  rfl

/-- C7: if some chunk of the provisional top-k already contains a
numbered-step line, the Step 4 guarantee splice returns `top` unchanged (and
the pipeline, a pure function of its inputs, yields the same result when
re-run). -/
theorem c7_step4_noop (q : String) (items top : List Snippet) (k : Nat)
    (h : ∃ sn ∈ top, is_numbered_steps sn.content = true) :
    step4 q items top k = .ok top :=
  ensureStep_noop _ _ items top k h

theorem c7_step4_noop_witness :
    (∃ sn ∈ [(⟨"1. x", "s.md", 0⟩ : Snippet)], is_numbered_steps sn.content = true) ∧
    step4 "q" [] [⟨"1. x", "s.md", 0⟩] 3 = .ok [⟨"1. x", "s.md", 0⟩] :=
  ⟨by decide, c7_step4_noop "q" [] [⟨"1. x", "s.md", 0⟩] 3 (by decide)⟩

/-- C3 counterexample: on `"livre"` the longest qualifying suffix is `"re"`
(giving `"liv"`), but the source's list order checks the bare `"e"` first and
returns `"livr"` — the suffix list is not tried longest-first. -/
theorem c3_longest_suffix_counterexample :
    stem_fr "livre" = "livr" ∧ stemSpecLongest "livre" = "liv" ∧
    stem_fr "livre" ≠ stemSpecLongest "livre" := by
  decide

/-- C3 amended: `stem` first removes diacritics, then strips the *first*
suffix in the fixed `_FR_SUFFIXES` order that matches and leaves a remainder
longer than `len(suffix) + 2`; if no suffix qualifies, the accent-stripped
token is returned unchanged. -/
theorem c3_first_suffix (tok : String) :
    (stem_fr tok = strip_accents tok ∧
      ∀ s ∈ FR_SUFFIXES, sufOK (strip_accents tok) s = false) ∨
    ∃ i, ∃ h : i < FR_SUFFIXES.length,
      sufOK (strip_accents tok) (FR_SUFFIXES.get ⟨i, h⟩) = true ∧
      stem_fr tok = drop_right (strip_accents tok) (FR_SUFFIXES.get ⟨i, h⟩).length ∧
      ∀ j, ∀ hj : j < i,
        sufOK (strip_accents tok) (FR_SUFFIXES.get ⟨j, Nat.lt_trans hj h⟩) = false := by
  rcases find_first_char (fun suf => sufOK (strip_accents tok) suf) FR_SUFFIXES with
    ⟨hnone, hall⟩ | ⟨i, h, hp, hfind, hprev⟩
  · refine Or.inl ⟨?_, hall⟩
    simp only [stem_fr]
    rw [hnone]
  · refine Or.inr ⟨i, h, hp, ?_, hprev⟩
    simp only [stem_fr]
    rw [hfind]

/-- C9 counterexample: the token class is the regex class `[A-Za-zÀ-ÿ0-9]`,
not "Unicode letters and digits": on `"2×3"` the multiplication sign × —
not a letter or digit — is kept inside a token. -/
theorem c9_tokenize_counterexample :
    tokenize "2×3" = ["2×3"] ∧ isUnicodeLetterOrDigit '×' = false := by
  decide

theorem splitRuns_cons_pos (p : Char → Bool) (c : Char) (cs : List Char)
    (hp : p c = true) :
    splitRuns p (c :: cs) =
      (c :: (splitRuns p cs).headD []) :: (splitRuns p cs).tail := by
  simp [splitRuns, hp]

theorem splitRuns_cons_neg (p : Char → Bool) (c : Char) (cs : List Char)
    (hp : p c = false) :
    splitRuns p (c :: cs) = [] :: splitRuns p cs := by
  simp [splitRuns, hp]

/-- The run-collecting scan of `_tokenize` against the `splitRuns`
decomposition, generalised over the run in progress. -/
theorem tokScan_eq (p : Char → Bool) (cs : List Char) : ∀ acc : List Char,
    tokScan p cs acc =
      if acc.isEmpty then (splitRuns p cs).filter (fun r => !r.isEmpty)
      else (acc.reverse ++ (splitRuns p cs).headD []) ::
        ((splitRuns p cs).tail.filter (fun r => !r.isEmpty)) := by
  induction cs with
  | nil =>
    intro acc
    cases acc <;> simp [tokScan, splitRuns]
  | cons c cs ih =>
    intro acc
    cases hp : p c with
    | true =>
      have hstep : tokScan p (c :: cs) acc = tokScan p cs (c :: acc) := by
        simp [tokScan, hp]
      rw [hstep, ih (c :: acc), splitRuns_cons_pos p c cs hp]
      cases acc with
      | nil => simp
      | cons a as => simp
    | false =>
      rw [splitRuns_cons_neg p c cs hp]
      cases acc with
      | nil =>
        have hstep : tokScan p (c :: cs) [] = tokScan p cs [] := by
          simp [tokScan, hp]
        rw [hstep, ih []]
        simp
      | cons a as =>
        have hstep : tokScan p (c :: cs) (a :: as) =
            (a :: as).reverse :: tokScan p cs [] := by
          simp [tokScan, hp]
        rw [hstep, ih []]
        simp

/-- C9 amended: `tokenize` returns exactly the maximal runs, in order, of
characters of the regex class `[A-Za-zÀ-ÿ0-9]` (ASCII letters and digits plus
U+00C0–U+00FF, including `×`/`÷` and excluding letters above U+00FF) of the
lowercased text. -/
theorem c9_tokenize_maximal_runs (text : String) :
    tokenize text =
      (classRuns tokClass (pyLower text).data).map (fun cs => (⟨cs⟩ : String)) := by
  unfold tokenize classRuns
  rw [tokScan_eq]
  simp

unseal Rat.add Rat.sub in
/-- C8 counterexample: the phrase "lien de réinitialisation" occurs in exactly
one document of `docsB` and no provisional top-1 chunk contains it, yet for
the query `"alpha beta"` (which shares no stems with the phrase chunk, with
an unavailable provider) the phrase chunk is not a merged candidate, Step 5
finds nothing to splice, and the result contains no phrase chunk. -/
theorem c8_phrase_not_spliced_counterexample :
    (docsB.filter fun d => containsSub (norm d.2) phraseStr).length = 1 ∧
    (∀ sn ∈ (rankedItems "alpha beta" docsB (.error ())).take 1,
      hasPhrase sn = false) ∧
    retrieve_snippets "alpha beta" 1 docsB (.error ()) =
      .ok [⟨"alpha beta gamma", "a.md", 999999999⟩] ∧
    hasPhrase ⟨"alpha beta gamma", "a.md", 999999999⟩ = false := by
  decide

/-- C8 amended: if the phrase occurs (case/accent-insensitively) in exactly
one document, no chunk of the provisional top-k contains it, *some merged
candidate's chunk does contain it*, and `k ≥ 1`, then Step 5 splices a
phrase-carrying chunk into the final k results. -/
theorem c8_phrase_guarantee (q : String) (k : Nat) (docs : List (String × String))
    (res : Except Unit (List (String × ℚ × String))) (hk : 1 ≤ k)
    (_hdoc : (docs.filter fun d => containsSub (norm d.2) phraseStr).length = 1)
    (htop : ∀ sn ∈ (rankedItems q docs res).take k, hasPhrase sn = false)
    (hcand : ∃ sn ∈ rankedItems q docs res, hasPhrase sn = true) :
    ∃ out, retrieve_snippets q k docs res = .ok out ∧
      ∃ sn ∈ out, hasPhrase sn = true := by
  have hlenk : ((rankedItems q docs res).take k).length = k := by
    rw [List.length_take]
    rcases Nat.le_total (rankedItems q docs res).length k with hle | hle
    · exfalso
      obtain ⟨sn, hsn, hp⟩ := hcand
      have hmem : sn ∈ (rankedItems q docs res).take k := by
        rw [List.take_of_length_le hle]
        exact hsn
      rw [htop sn hmem] at hp
      exact Bool.noConfusion hp
    · omega
  obtain ⟨t2, he2, hlen2, hfix2, hmem2, hnd2, hne2⟩ :=
    ensureStep_ok (fun sn => is_numbered_steps sn.content)
      (fun sn => is_numbered_steps sn.content && decide (0 < lexical_score q sn.content))
      (rankedItems q docs res) ((rankedItems q docs res).take k) k hk
      (le_of_eq hlenk)
  have hlent2 : t2.length = k := hfix2 hlenk
  have hs4 : step4 q (rankedItems q docs res) ((rankedItems q docs res).take k) k =
      .ok t2 := he2
  by_cases hph : ∃ sn ∈ t2, hasPhrase sn = true
  · have hs5 : step5 (rankedItems q docs res) t2 k = .ok t2 :=
      ensureStep_noop _ _ _ _ _ hph
    refine ⟨t2.take k, ?_, ?_⟩
    · simp only [retrieve_snippets]
      rw [hs4]
      dsimp only
      rw [hs5]
    · rw [List.take_of_length_le (le_of_eq hlent2)]
      exact hph
  · have hnone : ∀ sn ∈ t2, hasPhrase sn = false := by
      intro sn hsn
      cases hv : hasPhrase sn with
      | false => rfl
      | true => exact absurd ⟨sn, hsn, hv⟩ hph
    obtain ⟨t3, he3, hlen3, hex3⟩ :=
      ensureStep_insert (fun c => containsSub (norm c) phraseStr)
        (rankedItems q docs res) t2 k hk hlent2 hnone hcand
    have hs5 : step5 (rankedItems q docs res) t2 k = .ok t3 := he3
    refine ⟨t3.take k, ?_, ?_⟩
    · simp only [retrieve_snippets]
      rw [hs4]
      dsimp only
      rw [hs5]
    · rw [List.take_of_length_le (le_of_eq hlen3)]
      exact hex3

unseal Rat.add Rat.sub in
theorem c8_phrase_guarantee_witness :
    ((docsB.filter fun d => containsSub (norm d.2) phraseStr).length = 1 ∧
      (∀ sn ∈ (rankedItems "alpha beta lien" docsB (.error ())).take 1,
        hasPhrase sn = false) ∧
      (∃ sn ∈ rankedItems "alpha beta lien" docsB (.error ()),
        hasPhrase sn = true)) ∧
    (∃ out, retrieve_snippets "alpha beta lien" 1 docsB (.error ()) = .ok out ∧
      ∃ sn ∈ out, hasPhrase sn = true) :=
  ⟨⟨by decide, by decide, by decide⟩,
   c8_phrase_guarantee "alpha beta lien" 1 docsB (.error ()) (by decide)
     (by decide) (by decide) (by decide)⟩

unseal Rat.add Rat.sub in
/-- C10 counterexample: `docsB` has a corpus chunk containing the guarantee
phrase, yet with `k = 0` and the query `"alpha beta"` (under which that chunk
is not a merged candidate) `retrieve_snippets` returns `ok []` rather than
raising `IndexError`. -/
theorem c10_k0_counterexample :
    (∃ sc ∈ read_kb_docs docsB, containsSub (norm sc.2) phraseStr = true) ∧
    retrieve_snippets "alpha beta" 0 docsB (.error ()) = .ok [] := by
  decide

/-- C10 amended: for `k = 0`, if some *merged candidate* has a numbered-step
line and positive lexical score, or some merged candidate's content contains
the guarantee phrase, then the guarantee splice executes `top[-1] = ...` on
the empty provisional list and the call raises `IndexError`. -/
theorem c10_k0_index_error (q : String) (docs : List (String × String))
    (res : Except Unit (List (String × ℚ × String)))
    (h : (∃ sn ∈ rankedItems q docs res,
            is_numbered_steps sn.content = true ∧ 0 < lexical_score q sn.content) ∨
         (∃ sn ∈ rankedItems q docs res, hasPhrase sn = true)) :
    retrieve_snippets q 0 docs res = .error .indexError := by
  cases hfind : (rankedItems q docs res).find?
      (fun sn => is_numbered_steps sn.content && decide (0 < lexical_score q sn.content)) with
  | some cand =>
    have hs4 : step4 q (rankedItems q docs res) [] 0 = .error .indexError := by
      unfold step4 ensureStep
      simp [hfind, setLast]
    simp only [retrieve_snippets, List.take_zero]
    rw [hs4]
  | none =>
    have hs4 : step4 q (rankedItems q docs res) [] 0 = .ok [] := by
      unfold step4 ensureStep
      simp [hfind]
    have hex : ∃ sn ∈ rankedItems q docs res, hasPhrase sn = true := by
      rcases h with ⟨sn, hsn, hnum, hlex⟩ | hex
      · exfalso
        rw [List.find?_eq_none] at hfind
        have := hfind sn hsn
        simp [hnum, hlex] at this
      · exact hex
    obtain ⟨cand, hfound⟩ := Option.isSome_iff_exists.mp
      (List.find?_isSome.mpr (by obtain ⟨sn, hsn, hp⟩ := hex; exact ⟨sn, hsn, hp⟩))
    have hs5 : step5 (rankedItems q docs res) [] 0 = .error .indexError := by
      unfold step5 ensureStep
      simp [hfound, setLast]
    simp only [retrieve_snippets, List.take_zero]
    rw [hs4]
    dsimp only
    rw [hs5]

unseal Rat.add Rat.sub in
theorem c10_k0_index_error_witness :
    ((∃ sn ∈ rankedItems "alpha beta" docsA (.error ()),
        is_numbered_steps sn.content = true ∧
          0 < lexical_score "alpha beta" sn.content) ∨
      (∃ sn ∈ rankedItems "alpha beta" docsA (.error ()), hasPhrase sn = true)) ∧
    retrieve_snippets "alpha beta" 0 docsA (.error ()) = .error .indexError :=
  ⟨Or.inl (by decide),
   c10_k0_index_error "alpha beta" docsA (.error ()) (Or.inl (by decide))⟩

end RagSpec
